import Mathlib

/-!
# Verified model of the scan workbench core (sit_builder)

A shallow embedding of the candidate-aggregation, file-collection,
file-merge and scan-admission logic of
`src/frontend/src/pages/ScanWorkbenchPage.tsx`, together with theorems
settling the specification claims about that code.

Modelling conventions:
* JavaScript `number` fields are embedded as `Int` (scores, timestamps)
  or `Nat` (sizes, frequencies, which the data model describes as byte
  lengths and occurrence counts);
* `string | null | undefined` fields are `Option String`; JavaScript
  truthiness of a string (`null`, `undefined` and `""` are falsy) is the
  predicate `optTruthy`;
* the insertion-ordered JavaScript `Map` is an association list updated
  in place at the first matching key and extended at the tail for a new
  key, which is exactly the observable behaviour of `Map.get`/`Map.set`;
* the stable `Array.prototype.sort` is `List.mergeSort` with the order
  induced by the comparator.
-/

namespace SitBuilder

/-- Truthiness of an optional string: `null`/`undefined`/`""` are falsy. -/
def optTruthy : Option String → Bool
  | none => false
  | some s => s != ""

/-! ## Candidate data model (`types/api.ts`, fields used by the workbench) -/

/-- One raw candidate row as consumed by `groupedCandidates`:
`candidate_id`, `candidate_type`, `value`, `score`, `frequency` and the
provenance metadata fields `file_name`, `sit_category`,
`extraction_module`, `ocr_performed`. -/
structure RawCandidate where
  candidate_id : String
  candidate_type : String
  value : String
  score : Option Int
  frequency : Nat
  file_name : Option String
  sit_category : Option String
  extraction_module : Option String
  ocr_performed : Option Bool
deriving DecidableEq

/-- One aggregated row of the `grouped` map in `groupedCandidates`. -/
structure GroupedCandidate where
  key : String
  candidate_id : String
  candidate_type : String
  value : String
  score : Option Int
  frequency : Nat
  fileNames : List String
  sitCategory : Option String
  extractionModules : List String
  ocrStates : List Bool
deriving DecidableEq

/-- The identity key: `` `${candidate.candidate_type}::${candidate.value}` ``. -/
def candidateKey (c : RawCandidate) : String :=
  c.candidate_type ++ "::" ++ c.value

/-- `candidate.score ?? -1`, the effective score the code compares with. -/
def effScore : Option Int → Int
  | none => -1
  | some s => s

/-- `candidate.metadata?.sit_category ?? scanSitCategory` (nullish coalescing). -/
def effCat (scanCat : Option String) (c : RawCandidate) : Option String :=
  match c.sit_category with
  | some s => some s
  | none => scanCat

/-- The group created for a first-seen key (the `grouped.set` branch of
`groupedCandidates`); string-valued metadata enters the lists only when
truthy, `ocr_performed` only when it is a boolean. -/
def initGroup (scanCat : Option String) (c : RawCandidate) : GroupedCandidate where
  key := candidateKey c
  candidate_id := c.candidate_id
  candidate_type := c.candidate_type
  value := c.value
  score := c.score
  frequency := c.frequency
  fileNames := match c.file_name with
    | some s => if s != "" then [s] else []
    | none => []
  sitCategory := effCat scanCat c
  extractionModules := match c.extraction_module with
    | some s => if s != "" then [s] else []
    | none => []
  ocrStates := match c.ocr_performed with
    | some b => [b]
    | none => []

/-- The per-member update of an existing group (the `existing` branch of
`groupedCandidates`).  The source mutates the six fields one after the
other; the mutations touch pairwise disjoint fields and each reads only
its own field, so the simultaneous record update is the same function:
frequency is summed, the score is replaced when the incoming effective
score `score ?? -1` is strictly greater, truthy file names / modules are
appended when not already present, the category is filled only while the
current one is falsy, and a boolean OCR flag is appended when new. -/
def updateGroup (scanCat : Option String) (g : GroupedCandidate) (c : RawCandidate) :
    GroupedCandidate where
  key := g.key
  candidate_id := g.candidate_id
  candidate_type := g.candidate_type
  value := g.value
  score := if effScore c.score > effScore g.score then c.score else g.score
  frequency := g.frequency + c.frequency
  fileNames := match c.file_name with
    | some s => if s != "" && !(g.fileNames.contains s) then g.fileNames ++ [s] else g.fileNames
    | none => g.fileNames
  sitCategory :=
    if !(optTruthy g.sitCategory) && optTruthy (effCat scanCat c) then effCat scanCat c
    else g.sitCategory
  extractionModules := match c.extraction_module with
    | some s =>
      if s != "" && !(g.extractionModules.contains s) then g.extractionModules ++ [s]
      else g.extractionModules
    | none => g.extractionModules
  ocrStates := match c.ocr_performed with
    | some b => if !(g.ocrStates.contains b) then g.ocrStates ++ [b] else g.ocrStates
    | none => g.ocrStates

/-- One step of the grouping loop: the insertion-ordered `Map` either
updates the (unique) entry carrying the candidate's key in place, or
appends a fresh group at the end. -/
def insertGrouped (scanCat : Option String) (c : RawCandidate) :
    List GroupedCandidate → List GroupedCandidate
  | [] => [initGroup scanCat c]
  | g :: gs =>
    if g.key == candidateKey c then updateGroup scanCat g c :: gs
    else g :: insertGrouped scanCat c gs

/-- The grouping pass of `groupedCandidates`: fold the raw pool, in
order, into the insertion-ordered map. -/
def groupPool (scanCat : Option String) (pool : List RawCandidate) : List GroupedCandidate :=
  pool.foldl (fun acc c => insertGrouped scanCat c acc) []

/-- `groupedCandidates`: group, then sort with the comparator
`(a, b) => (b.score ?? -1) - (a.score ?? -1)` — a stable descending sort
on the effective score. -/
def groupedCandidates (scanCat : Option String) (pool : List RawCandidate) :
    List GroupedCandidate :=
  (groupPool scanCat pool).mergeSort fun a b => effScore b.score ≤ effScore a.score

/-! ## OCR column rendering -/

/-- The five values the OCR column can show: `N/A`, `-`, `Yes`, `No`, `Mixed`. -/
inductive OcrCell where
  | notApplicable
  | noSignal
  | yes
  | no
  | mixed
deriving DecidableEq

/-- `ocrColumnNotApplicable`: the scan uses the bridged backend. -/
def ocrColumnNotApplicable (scan_type : String) : Bool :=
  scan_type == "sentence_transformer"

/-- The OCR cell of one aggregated row, as rendered by the results
table: `N/A` when the backend is bridged, otherwise `-`/`Yes`/`No`/`Mixed`
from the collected `ocrStates`. -/
def ocrIndicator (na : Bool) (states : List Bool) : OcrCell :=
  if na then .notApplicable
  else if states.length == 0 then .noSignal
  else if states.length == 1 then (if states.headD false then .yes else .no)
  else .mixed

/-! ## Working-set merge (`mergeFiles`) -/

/-- A file in the working set: name, byte length, last-modified
timestamp, and its bytes (which do not take part in the identity). -/
structure WorkFile where
  name : String
  size : Nat
  lastModified : Int
  content : String
deriving DecidableEq

/-- The merge identity: `` `${file.name}:${file.size}:${file.lastModified}` ``. -/
def fileKey (f : WorkFile) : String :=
  f.name ++ ":" ++ toString f.size ++ ":" ++ toString f.lastModified

/-- `Map.set`: replace the value at the first occurrence of the key,
keeping its position, or append a new entry. -/
def setKey (k : String) (f : WorkFile) :
    List (String × WorkFile) → List (String × WorkFile)
  | [] => [(k, f)]
  | p :: ps => if p.fst == k then (k, f) :: ps else p :: setKey k f ps

/-- `new Map(prev.map((file) => [key, file]))`. -/
def toKeyMap (files : List WorkFile) : List (String × WorkFile) :=
  files.foldl (fun m f => setKey (fileKey f) f m) []

/-- `mergeFiles`: no-op on an empty incoming batch, otherwise key the
previous set, `Map.set` each incoming file, and take the values. -/
def mergeFiles (prev incoming : List WorkFile) : List WorkFile :=
  if incoming.length == 0 then prev
  else (incoming.foldl (fun m f => setKey (fileKey f) f m) (toKeyMap prev)).map Prod.snd

/-! ## Source collector -/

/-- A file as delivered by a drop entry: name, content, timestamp. -/
structure DroppedFile where
  name : String
  content : String
  lastModified : Int
deriving DecidableEq

/-- A `FileSystemEntry`: either a file, or a directory whose reader
delivers its children in successive batches. -/
inductive FsEntry where
  | file (f : DroppedFile)
  | dir (name : String) (batches : List (List FsEntry))

/-- `readAllDirectoryEntries`: keep requesting batches, concatenating
them, until an empty batch is returned; an exhausted reader returns
empty batches forever. -/
def readAllDirectoryEntries : List (List FsEntry) → List FsEntry
  | [] => []
  | batch :: rest => if batch.isEmpty then [] else batch ++ readAllDirectoryEntries rest

mutual

/-- `collectFilesFromEntry`: a file entry yields itself, renamed with
the accumulated path prefix when there is one; a directory entry is
fully enumerated batch by batch and its children are collected
recursively under the extended path. -/
def collectFilesFromEntry (parentPath : String) : FsEntry → List DroppedFile
  | .file f =>
    if parentPath == "" then [f]
    else [{ f with name := parentPath ++ "/" ++ f.name }]
  | .dir name batches =>
    collectFromBatches (if parentPath == "" then name else parentPath ++ "/" ++ name) batches

/-- The directory loop of `collectFilesFromEntry`, fused with
`readAllDirectoryEntries`: an empty batch ends the enumeration. -/
def collectFromBatches (path : String) : List (List FsEntry) → List DroppedFile
  | [] => []
  | batch :: rest =>
    if batch.isEmpty then []
    else collectFromEntries path batch ++ collectFromBatches path rest

/-- `children.map((child) => collectFilesFromEntry(child, nextPath))`
followed by `.flat()`. -/
def collectFromEntries (path : String) : List FsEntry → List DroppedFile
  | [] => []
  | e :: es => collectFilesFromEntry path e ++ collectFromEntries path es

end

/-- The dropped `DataTransfer`: for each item, `webkitGetAsEntry` may
yield an entry or `null`; `files` is the flat file list. -/
structure DataTransferModel where
  items : List (Option FsEntry)
  files : List DroppedFile

/-- `extractDroppedFiles`: traverse the obtainable entries; fall back to
the flat file list when no entries are obtainable or the traversal
yields no files. -/
def extractDroppedFiles (dt : DataTransferModel) : List DroppedFile :=
  let entries := dt.items.filterMap id
  if entries.length == 0 then dt.files
  else
    let files := (entries.map (collectFilesFromEntry "")).flatten
    if files.length > 0 then files else dt.files

/-! ## Scan admission (`submitScan`) -/

/-- The form state read by `submitScan`. -/
structure WorkbenchForm where
  files : List WorkFile
  scanName : String
  sitCategory : String
  customSitCategory : String
  preserveCase : Bool
  forceOcr : Bool
  scanType : String
  userPrincipalName : String
  exchangeToken : Option String
  exchangeOrganization : String
deriving DecidableEq

/-- The payload handed to `api.createScan`. -/
structure CreateScanRequest where
  files : List WorkFile
  name : String
  scanType : String
  sitCategory : String
  userPrincipalName : Option String
  exchangeAccessToken : Option String
  exchangeOrganization : Option String
  preserveCase : Bool
  forceOcr : Bool
deriving DecidableEq

/-- What `submitScan` does before any network call: reject with an
error message, or issue exactly one scan-creation request. -/
inductive SubmitOutcome where
  | admissionError (message : String)
  | createScan (req : CreateScanRequest)
deriving DecidableEq

/-- `x || undefined` for a string-valued field. -/
def strOrNone (s : String) : Option String :=
  if s == "" then none else some s

/-- JavaScript `String.prototype.trim`: strip leading and trailing
whitespace. -/
def jsTrim (s : String) : String :=
  ⟨((s.data.dropWhile Char.isWhitespace).reverse.dropWhile Char.isWhitespace).reverse⟩

/-- The synchronous admission logic of `submitScan`, in source order:
no files, then (for the bridged backend) blank principal, then missing
credential, then empty effective category, each aborting with an error
before `api.createScan`; otherwise the created request.  The
time-dependent `formatDefaultScanName` is abstracted as the
`defaultScanName` argument applied to `files[0].name`. -/
def submitScan (defaultScanName : String → String) (s : WorkbenchForm) : SubmitOutcome :=
  if s.files.length == 0 then
    .admissionError "Select at least one file to scan."
  else if s.scanType == "sentence_transformer" && jsTrim s.userPrincipalName == "" then
    .admissionError "User principal name is required for SentenceTransformer scans."
  else if s.scanType == "sentence_transformer" && !(optTruthy s.exchangeToken) then
    .admissionError "Authenticate with Microsoft before running a SentenceTransformer scan."
  else
    let effectiveScanName :=
      if jsTrim s.scanName == "" then defaultScanName (s.files.headD ⟨"", 0, 0, ""⟩).name
      else jsTrim s.scanName
    let effectiveSitCategory :=
      if s.sitCategory == "Custom" then jsTrim s.customSitCategory else s.sitCategory
    if effectiveSitCategory == "" then
      .admissionError "Enter a custom SIT Category or select a predefined category."
    else
      .createScan
        { files := s.files
          name := effectiveScanName
          scanType := s.scanType
          sitCategory := effectiveSitCategory
          userPrincipalName := strOrNone s.userPrincipalName
          exchangeAccessToken := match s.exchangeToken with
            | some t => strOrNone t
            | none => none
          exchangeOrganization := strOrNone s.exchangeOrganization
          preserveCase := s.preserveCase
          forceOcr := if s.scanType == "classic_nlp" then s.forceOcr else false }

/-- The `useEffect` that clears the force-OCR flag whenever the bridged
backend is selected while the flag is on. -/
def forceOcrAfterScanTypeChange (scanType : String) (forceOcr : Bool) : Bool :=
  if scanType == "sentence_transformer" && forceOcr then false else forceOcr

/-! ## Derived per-key views of a raw pool (used to characterise the
grouping fold) -/

/-- The members of a pool sharing the identity key `k`, in pool order. -/
def poolForKey (k : String) (pool : List RawCandidate) : List RawCandidate :=
  pool.filter fun c => candidateKey c == k

/-- Summed occurrence count of a member list. -/
def sumFreq (l : List RawCandidate) : Nat :=
  (l.map fun c => c.frequency).sum

/-- Maximum effective score of a member list (`-1` for the empty list). -/
def maxEff : List RawCandidate → Int
  | [] => -1
  | c :: cs => cs.foldl (fun a c2 => max a (effScore c2.score)) (effScore c.score)

/-- The category label the grouping fold accumulates over a member
list: start from the first member's effective label
(`sit_category ?? scanCat`) and replace it by a later member's truthy
effective label only while the current label is falsy. -/
def foldCat (scanCat : Option String) : List RawCandidate → Option String
  | [] => none
  | c :: cs =>
    cs.foldl
      (fun s c2 => if !(optTruthy s) && optTruthy (effCat scanCat c2) then effCat scanCat c2 else s)
      (effCat scanCat c)

/-- The decimal digit list of a natural number, most significant digit
first (the list `Nat.repr` produces; used to reason about `fileKey`). -/
def natDigits (n : Nat) : List Char :=
  if n < 10 then [Nat.digitChar n]
  else natDigits (n / 10) ++ [Nat.digitChar (n % 10)]
termination_by n
decreasing_by exact Nat.div_lt_self (by omega) (by omega)

/-- The value read back from a decimal digit list. -/
def digitsVal (l : List Char) : Nat :=
  l.foldl (fun a c => 10 * a + (c.toNat - 48)) 0

/-! ## Spec-side predicates and concrete claim data -/

/-- The first scenario candidate, `{type: "SSN", value: "123-45-6789",
file: "a.txt", score: 80, ocr: true}`, with occurrence count `f1`. -/
def ssnCandA (f1 : Nat) : RawCandidate :=
  ⟨"c1", "SSN", "123-45-6789", some 80, f1, some "a.txt", none, none, some true⟩

/-- The second scenario candidate, `{type: "SSN", value: "123-45-6789",
file: "b.txt", score: 90, ocr: false}`, with occurrence count `f2`. -/
def ssnCandB (f2 : Nat) : RawCandidate :=
  ⟨"c2", "SSN", "123-45-6789", some 90, f2, some "b.txt", none, none, some false⟩

/-- The ordering the spec asserts for the output: `a` may precede `b`
when `b`'s score is strictly below `a`'s, where a missing score is
strictly below every concrete score and equal to none of them, and
concrete scores compare numerically. -/
def specScoreGE : Option Int → Option Int → Bool
  | _, none => true
  | none, some _ => false
  | some x, some y => y ≤ x

/-- The claim as stated: every aggregation output is sorted descending
with this ordering, so every no-score group comes after every
concrete-score group. -/
def candidatesSortedSpec (scanCat : Option String) (pool : List RawCandidate) : Prop :=
  (groupedCandidates scanCat pool).Pairwise fun g h => specScoreGE g.score h.score = true

/-- A candidate with no score (identity key `A::x`). -/
def noScoreCand : RawCandidate := ⟨"n", "A", "x", none, 1, none, none, none, none⟩

/-- A candidate with concrete score `-1` (identity key `B::y`). -/
def lowScoreCand : RawCandidate := ⟨"m", "B", "y", some (-1), 1, none, none, none, none⟩

/-- The category rule as the spec words it: the first non-null label a
member itself carries, with the scan-level default only as a group-level
fallback when no member carries one. -/
def specC3Label (scanCat : Option String) (members : List RawCandidate) : Option String :=
  match members.findSome? (fun c => c.sit_category) with
  | some l => some l
  | none => scanCat

/-- The claim that every aggregated group's label follows
`specC3Label`. -/
def categoryLabelAsSpecified (scanCat : Option String) (pool : List RawCandidate) : Prop :=
  ∀ g ∈ groupedCandidates scanCat pool,
    g.sitCategory = specC3Label scanCat (poolForKey g.key pool)

/-- A member of key `T::v` carrying no own label. -/
def unlabeledCand : RawCandidate := ⟨"c1", "T", "v", none, 1, none, none, none, none⟩

/-- A later member of key `T::v` carrying its own label `L`. -/
def labeledCand : RawCandidate := ⟨"c2", "T", "v", none, 1, none, some "L", none, none⟩

/-! ## General helper lemmas -/

/-- Evaluation of `mergeSort` on a two-element list. -/
theorem mergeSort_pair {α : Type} (le : α → α → Bool) (a b : α) :
    List.mergeSort [a, b] le = if le a b then [a, b] else [b, a] := by
  rw [List.mergeSort]
  simp [List.splitInTwo, List.splitAt, List.splitAt.go, List.merge]

/-! ## Claim C1: the two-member SSN aggregation scenario -/

/-- C1: aggregating the two same-identity SSN candidates (scores 80 and
90, files `a.txt` and `b.txt`, OCR flags true and false, any occurrence
counts) yields exactly one aggregated candidate, whose score is the
maximum 90, whose occurrence count is the sum of the members' counts,
whose file list is `["a.txt", "b.txt"]` in first-seen order, and whose
OCR cell (for the classic backend) renders as `Mixed`. -/
theorem ssn_pair_aggregates_to_one_max_scored_group (scanCat : Option String) (f1 f2 : Nat) :
    (groupedCandidates scanCat [ssnCandA f1, ssnCandB f2]).map
        (fun g => (g.score, g.frequency, g.fileNames,
          ocrIndicator (ocrColumnNotApplicable "classic_nlp") g.ocrStates))
      = [(some 90, f1 + f2, ["a.txt", "b.txt"], OcrCell.mixed)] := by
  simp [groupedCandidates, groupPool, insertGrouped, initGroup, updateGroup, candidateKey,
    effScore, effCat, ssnCandA, ssnCandB, optTruthy, List.mergeSort_singleton,
    ocrIndicator, ocrColumnNotApplicable]

/-! ## Claim C2: output ordering -/

/-- C2 fails on the code: the comparator `(b.score ?? -1) - (a.score ?? -1)`
maps a missing score to the sentinel `-1`, so a no-score group ties with
a concrete score of `-1` and the stable sort leaves the no-score group
in front of it. -/
theorem missing_score_not_sorted_strictly_last :
    ¬ candidatesSortedSpec none [noScoreCand, lowScoreCand] := by
  have heval : groupedCandidates none [noScoreCand, lowScoreCand]
      = [initGroup none noScoreCand, initGroup none lowScoreCand] := by
    simp [groupedCandidates, groupPool, insertGrouped, candidateKey, noScoreCand, lowScoreCand,
      mergeSort_pair, initGroup, effScore]
  intro h
  unfold candidatesSortedSpec at h
  rw [heval] at h
  have h2 := (List.pairwise_cons.mp h).1 _ (List.mem_singleton.mpr rfl)
  simp [initGroup, noScoreCand, lowScoreCand, specScoreGE] at h2

/-- C2 amended: the output is sorted in descending order of the
*effective* score `score ?? -1`; a missing score is treated exactly as
the concrete score `-1` (so it sorts after every score above `-1`,
before every score below `-1`, and ties with `-1` itself). -/
theorem output_sorted_descending_by_effective_score
    (scanCat : Option String) (pool : List RawCandidate) :
    (groupedCandidates scanCat pool).Pairwise
      fun g h => effScore h.score ≤ effScore g.score := by
  have h := @List.sorted_mergeSort GroupedCandidate
    (fun a b : GroupedCandidate => decide (effScore b.score ≤ effScore a.score))
    (fun a b c hab hbc => by
      simp only [decide_eq_true_eq] at *
      omega)
    (fun a b => by
      simp only [Bool.or_eq_true, decide_eq_true_eq]
      omega)
    (groupPool scanCat pool)
  exact h.imp fun hab => of_decide_eq_true hab

/-! ## Claim C8: OCR column for the bridged backend -/

/-- C8: for every aggregated candidate of a bridged
(`sentence_transformer`) scan the rendered OCR cell is `N/A`, whatever
raw OCR flags the pool contains; for a classic scan the cell is never
`N/A` (it is one of `-`/`Yes`/`No`/`Mixed` computed from the group's
collected flags). -/
theorem bridged_scan_ocr_cell_not_applicable
    (scanCat : Option String) (pool : List RawCandidate) (g : GroupedCandidate)
    (_hg : g ∈ groupedCandidates scanCat pool) :
    ocrIndicator (ocrColumnNotApplicable "sentence_transformer") g.ocrStates
        = OcrCell.notApplicable
    ∧ ocrIndicator (ocrColumnNotApplicable "classic_nlp") g.ocrStates
        ≠ OcrCell.notApplicable := by
  constructor
  · simp [ocrIndicator, ocrColumnNotApplicable]
  · simp only [ocrIndicator, ocrColumnNotApplicable]
    split
    · simp_all
    · split
      · simp
      · split
        · split <;> simp
        · simp

/-- Witness for C8 at a concrete one-candidate pool. -/
theorem bridged_scan_ocr_cell_not_applicable_witness :
    ocrIndicator (ocrColumnNotApplicable "sentence_transformer")
        (initGroup none ⟨"n", "A", "x", none, 1, none, none, none, some true⟩).ocrStates
        = OcrCell.notApplicable
    ∧ ocrIndicator (ocrColumnNotApplicable "classic_nlp")
        (initGroup none ⟨"n", "A", "x", none, 1, none, none, none, some true⟩).ocrStates
        ≠ OcrCell.notApplicable :=
  bridged_scan_ocr_cell_not_applicable none
    [⟨"n", "A", "x", none, 1, none, none, none, some true⟩] _ (by
      have heval : groupedCandidates none [⟨"n", "A", "x", none, 1, none, none, none, some true⟩]
          = [initGroup none ⟨"n", "A", "x", none, 1, none, none, none, some true⟩] := by
        simp [groupedCandidates, groupPool, insertGrouped, List.mergeSort_singleton]
      rw [heval]
      exact List.mem_singleton.mpr rfl)

/-! ## Claim C7: admission failures -/

/-- C7: a submission with zero files, and a submission with the bridged
backend but a blank principal or no delegated credential, both fail with
an admission error: `submitScan` returns the error before any
scan-creation request is issued. -/
theorem empty_or_uncredentialed_submission_is_rejected
    (d : String → String) (s : WorkbenchForm)
    (h : s.files.length = 0
      ∨ (s.scanType = "sentence_transformer"
          ∧ (jsTrim s.userPrincipalName = "" ∨ optTruthy s.exchangeToken = false))) :
    ∃ msg, submitScan d s = SubmitOutcome.admissionError msg := by
  rcases h with h0 | ⟨hst, hcred⟩
  · exact ⟨"Select at least one file to scan.", by simp [submitScan, h0]⟩
  · by_cases h0 : s.files.length = 0
    · exact ⟨"Select at least one file to scan.", by simp [submitScan, h0]⟩
    · by_cases hupn : jsTrim s.userPrincipalName = ""
      · exact ⟨"User principal name is required for SentenceTransformer scans.",
          by simp [submitScan, h0, hst, hupn]⟩
      · have htok : optTruthy s.exchangeToken = false := by
          rcases hcred with h | h
          · exact absurd h hupn
          · exact h
        exact ⟨"Authenticate with Microsoft before running a SentenceTransformer scan.",
          by simp [submitScan, h0, hst, hupn, htok]⟩

/-- Witness for C7: the zero-file submission. -/
theorem empty_or_uncredentialed_submission_is_rejected_witness :
    ∃ msg,
      submitScan (fun _ => "scan")
          ⟨[], "", "Legal", "", false, false, "classic_nlp", "", none, ""⟩
        = SubmitOutcome.admissionError msg :=
  empty_or_uncredentialed_submission_is_rejected (fun _ => "scan")
    ⟨[], "", "Legal", "", false, false, "classic_nlp", "", none, ""⟩ (Or.inl rfl)

/-! ## Claim C9: force-OCR is never sent for the bridged backend -/

/-- C9: whenever `submitScan` issues a scan-creation request for the
bridged (`sentence_transformer`) backend, the request carries
`force_ocr = false` whatever the checkbox state, and the effect hook
clears a previously enabled force-OCR flag as soon as the bridged
backend is selected. -/
theorem bridged_submission_never_sends_force_ocr
    (d : String → String) (s : WorkbenchForm) (req : CreateScanRequest)
    (hst : s.scanType = "sentence_transformer")
    (hsub : submitScan d s = SubmitOutcome.createScan req) :
    req.forceOcr = false ∧ forceOcrAfterScanTypeChange s.scanType s.forceOcr = false := by
  refine ⟨?_, by simp [forceOcrAfterScanTypeChange, hst]⟩
  unfold submitScan at hsub
  by_cases h0 : s.files.length == 0
  · simp [h0] at hsub
  · by_cases hupn : jsTrim s.userPrincipalName == ""
    · simp [h0, hst, hupn] at hsub
    · by_cases htok : optTruthy s.exchangeToken
      · by_cases hcat :
          (if s.sitCategory = "Custom" then jsTrim s.customSitCategory else s.sitCategory) = ""
        · simp [h0, hst, hupn, htok, hcat] at hsub
        · simp [h0, hst, hupn, htok, hcat] at hsub
          rw [← hsub]
      · simp [h0, hst, hupn, htok] at hsub

/-- Witness for C9: a fully-credentialed bridged submission with the
force-OCR checkbox enabled still produces a request with
`force_ocr = false`. -/
theorem bridged_submission_never_sends_force_ocr_witness :
    ({ files := [⟨"f.txt", 3, 0, "abc"⟩], name := "My Scan",
       scanType := "sentence_transformer", sitCategory := "Legal",
       userPrincipalName := some "user@contoso.com", exchangeAccessToken := some "tok",
       exchangeOrganization := none, preserveCase := false,
       forceOcr := false } : CreateScanRequest).forceOcr = false
    ∧ forceOcrAfterScanTypeChange "sentence_transformer" true = false :=
  bridged_submission_never_sends_force_ocr (fun _ => "default")
    ⟨[⟨"f.txt", 3, 0, "abc"⟩], "My Scan", "Legal", "", false, true, "sentence_transformer",
      "user@contoso.com", some "tok", ""⟩ _ rfl (by decide)

/-! ## Claims C6 and C10: the source collector -/

/-- When every batch a reader delivers is nonempty, the enumeration
loop returns exactly their concatenation. -/
theorem readAllDirectoryEntries_eq_flatten
    (bs : List (List FsEntry)) (h : ∀ b ∈ bs, b ≠ []) :
    readAllDirectoryEntries bs = bs.flatten := by
  induction bs with
  | nil => rfl
  | cons b rest ih =>
    have hb : b ≠ [] := h b (List.mem_cons_self b rest)
    simp only [readAllDirectoryEntries, List.flatten_cons]
    rw [if_neg (by simpa using hb)]
    rw [ih fun x hx => h x (List.mem_cons_of_mem b hx)]

/-- Collecting entry by entry distributes over list concatenation. -/
theorem collectFromEntries_append (p : String) (l1 l2 : List FsEntry) :
    collectFromEntries p (l1 ++ l2) = collectFromEntries p l1 ++ collectFromEntries p l2 := by
  induction l1 with
  | nil => simp [collectFromEntries]
  | cons e es ih => simp [collectFromEntries, ih]

/-- The fused batch loop equals collecting over
`readAllDirectoryEntries`, i.e. `collectFilesFromEntry` enumerates a
directory exactly as the source does: request batches until an empty
one, then recurse over the concatenation. -/
theorem collectFromBatches_eq_collect_read (p : String) (bs : List (List FsEntry)) :
    collectFromBatches p bs = collectFromEntries p (readAllDirectoryEntries bs) := by
  induction bs with
  | nil => rfl
  | cons b rest ih =>
    simp only [collectFromBatches, readAllDirectoryEntries]
    by_cases hb : b.isEmpty
    · simp [hb, collectFromEntries]
    · simp [hb, collectFromEntries_append, ih]

/-- C10: whenever entries are obtainable but their recursive traversal
yields zero files — and likewise when no entries are obtainable at all —
the collector returns the flat file list of the drop unchanged. -/
theorem empty_traversal_falls_back_to_flat_list (dt : DataTransferModel)
    (h : dt.items.filterMap id = []
      ∨ ((dt.items.filterMap id).map (collectFilesFromEntry "")).flatten = []) :
    extractDroppedFiles dt = dt.files := by
  rcases h with h | h
  · simp [extractDroppedFiles, h]
  · by_cases h0 : dt.items.filterMap id = []
    · simp [extractDroppedFiles, h0]
    · simp [extractDroppedFiles, h]

/-- Witness for C10: a drop exposing one entry, an empty directory,
falls back to the flat list. -/
theorem empty_traversal_falls_back_to_flat_list_witness :
    extractDroppedFiles ⟨[some (FsEntry.dir "d" [])], [⟨"c.txt", "C", 0⟩]⟩
      = [⟨"c.txt", "C", 0⟩] :=
  empty_traversal_falls_back_to_flat_list _ (Or.inr rfl)

/-- C6: dropping a folder `root` containing `a.txt` and a subfolder
`sub` with `b.txt` — each directory listed in arbitrarily batched
nonempty chunks, terminated by an empty batch — together with a flat
file `c.txt`, collects exactly the three payloads `root/a.txt`,
`root/sub/b.txt` and `c.txt`, each once. -/
theorem nested_drop_collects_three_path_qualified_files
    (bs1 bs2 : List (List FsEntry)) (flat : List DroppedFile)
    (h1 : ∀ b ∈ bs1, b ≠ [])
    (h2 : ∀ b ∈ bs2, b ≠ [])
    (hf1 : bs1.flatten = [FsEntry.file ⟨"a.txt", "A", 1⟩, FsEntry.dir "sub" bs2])
    (hf2 : bs2.flatten = [FsEntry.file ⟨"b.txt", "B", 2⟩]) :
    (extractDroppedFiles
        ⟨[some (FsEntry.dir "root" bs1), some (FsEntry.file ⟨"c.txt", "C", 3⟩)], flat⟩).map
        (fun f => f.name)
      = ["root/a.txt", "root/sub/b.txt", "c.txt"] := by
  have e1 : readAllDirectoryEntries bs1
      = [FsEntry.file ⟨"a.txt", "A", 1⟩, FsEntry.dir "sub" bs2] := by
    rw [readAllDirectoryEntries_eq_flatten bs1 h1, hf1]
  have e2 : readAllDirectoryEntries bs2 = [FsEntry.file ⟨"b.txt", "B", 2⟩] := by
    rw [readAllDirectoryEntries_eq_flatten bs2 h2, hf2]
  simp [extractDroppedFiles, collectFilesFromEntry, collectFromBatches_eq_collect_read,
    e1, e2, collectFromEntries]

/-- Witness for C6 at concrete two-batch listings. -/
theorem nested_drop_collects_three_path_qualified_files_witness :
    (extractDroppedFiles
        ⟨[some (FsEntry.dir "root"
            [[FsEntry.file ⟨"a.txt", "A", 1⟩],
             [FsEntry.dir "sub" [[FsEntry.file ⟨"b.txt", "B", 2⟩]]]]),
          some (FsEntry.file ⟨"c.txt", "C", 3⟩)], []⟩).map
        (fun f => f.name)
      = ["root/a.txt", "root/sub/b.txt", "c.txt"] :=
  nested_drop_collects_three_path_qualified_files
    [[FsEntry.file ⟨"a.txt", "A", 1⟩], [FsEntry.dir "sub" [[FsEntry.file ⟨"b.txt", "B", 2⟩]]]]
    [[FsEntry.file ⟨"b.txt", "B", 2⟩]] []
    (by simp) (by simp) rfl rfl

/-! ## Characterisation of the grouping fold -/

/-- `updateGroup` keeps the group's key. -/
theorem updateGroup_key (sc : Option String) (g : GroupedCandidate) (c : RawCandidate) :
    (updateGroup sc g c).key = g.key := rfl

/-- A fresh group carries the candidate's key. -/
theorem initGroup_key (sc : Option String) (c : RawCandidate) :
    (initGroup sc c).key = candidateKey c := rfl

/-- The effective score after an update is the maximum of the old and
incoming effective scores. -/
theorem updateGroup_effScore (sc : Option String) (g : GroupedCandidate) (c : RawCandidate) :
    effScore (updateGroup sc g c).score = max (effScore g.score) (effScore c.score) := by
  show effScore (if effScore c.score > effScore g.score then c.score else g.score) = _
  by_cases h : effScore c.score > effScore g.score
  · rw [if_pos h]
    exact (max_eq_right (le_of_lt h)).symm
  · rw [if_neg h]
    exact (max_eq_left (le_of_not_lt h)).symm

/-- Filtering for a key distributes over appending one candidate. -/
theorem poolForKey_append (k : String) (pool : List RawCandidate) (c : RawCandidate) :
    poolForKey k (pool ++ [c])
      = poolForKey k pool ++ (if candidateKey c == k then [c] else []) := by
  simp [poolForKey, List.filter_append, List.filter_cons]

/-- Summed counts after appending one member. -/
theorem sumFreq_append (l : List RawCandidate) (c : RawCandidate) :
    sumFreq (l ++ [c]) = sumFreq l + c.frequency := by
  simp [sumFreq]

/-- Maximum effective score after appending one member. -/
theorem maxEff_append (l : List RawCandidate) (c : RawCandidate) :
    maxEff (l ++ [c])
      = if l = [] then effScore c.score else max (maxEff l) (effScore c.score) := by
  cases l with
  | nil => simp [maxEff]
  | cons c0 cs => simp [maxEff, List.foldl_append]

/-- Accumulated category after appending one member. -/
theorem foldCat_append (sc : Option String) (l : List RawCandidate) (c : RawCandidate) :
    foldCat sc (l ++ [c])
      = if l = [] then effCat sc c
        else if !(optTruthy (foldCat sc l)) && optTruthy (effCat sc c) then effCat sc c
        else foldCat sc l := by
  cases l with
  | nil => simp [foldCat]
  | cons c0 cs => simp [foldCat, List.foldl_append]

/-- Looking up the inserted candidate's own key after an insertion:
the entry is the updated old group, or a fresh initial group. -/
theorem find?_insertGrouped_self (sc : Option String) (c : RawCandidate)
    (acc : List GroupedCandidate) :
    (insertGrouped sc c acc).find? (fun g2 => g2.key == candidateKey c)
      = some (match acc.find? (fun g2 => g2.key == candidateKey c) with
          | some g => updateGroup sc g c
          | none => initGroup sc c) := by
  induction acc with
  | nil => simp [insertGrouped, List.find?, initGroup]
  | cons g gs ih =>
    by_cases h : g.key == candidateKey c
    · simp [insertGrouped, h, List.find?, updateGroup_key]
    · simp only [insertGrouped, h, Bool.false_eq_true, if_false, List.find?_cons, h, ih]

/-- Insertion does not affect lookups of a different key. -/
theorem find?_insertGrouped_other (sc : Option String) (c : RawCandidate)
    (acc : List GroupedCandidate) (k : String) (hk : candidateKey c ≠ k) :
    (insertGrouped sc c acc).find? (fun g2 => g2.key == k)
      = acc.find? (fun g2 => g2.key == k) := by
  have hck : (candidateKey c == k) = false := by
    simp [hk]
  induction acc with
  | nil =>
    simp [insertGrouped, List.find?, initGroup, hck]
  | cons g gs ih =>
    by_cases h : g.key == candidateKey c
    · have hgk : (g.key == k) = false := by
        have h2 := eq_of_beq h
        simp [h2, hk]
      simp [insertGrouped, h, List.find?_cons, hgk, updateGroup_key]
    · by_cases hgk : g.key == k
      · simp [insertGrouped, h, List.find?_cons, hgk]
      · simp [insertGrouped, h, List.find?_cons, hgk, ih]

/-- Folding one more candidate into the map. -/
theorem groupPool_append (sc : Option String) (pool : List RawCandidate) (c : RawCandidate) :
    groupPool sc (pool ++ [c]) = insertGrouped sc c (groupPool sc pool) := by
  simp [groupPool, List.foldl_append]

/-- Characterisation of the grouping fold, per key: the entry found for
`k` (when it exists) carries key `k`, the summed occurrence count, the
maximum effective score and the accumulated category label of the
members of the pool with key `k`, which are then nonempty; when no
entry is found, no member of the pool has key `k`. -/
theorem groupPool_find_char (sc : Option String) (pool : List RawCandidate) (k : String) :
    (∀ g, (groupPool sc pool).find? (fun g2 => g2.key == k) = some g →
        g.key = k
        ∧ g.frequency = sumFreq (poolForKey k pool)
        ∧ effScore g.score = maxEff (poolForKey k pool)
        ∧ g.sitCategory = foldCat sc (poolForKey k pool)
        ∧ poolForKey k pool ≠ [])
    ∧ ((groupPool sc pool).find? (fun g2 => g2.key == k) = none → poolForKey k pool = []) := by
  induction pool using List.reverseRecOn with
  | nil =>
    refine ⟨fun g hg => ?_, fun _ => rfl⟩
    simp [groupPool] at hg
  | append_singleton ps c ih =>
    rw [groupPool_append, poolForKey_append]
    by_cases hck : (candidateKey c == k) = true
    · have hceq : candidateKey c = k := eq_of_beq hck
      subst hceq
      rw [find?_insertGrouped_self]
      simp only [beq_self_eq_true, if_true]
      refine ⟨fun g hg => ?_, fun hnone => by cases hnone⟩
      rw [Option.some_inj] at hg
      cases hold : (groupPool sc ps).find? (fun g2 => g2.key == candidateKey c) with
      | some g0 =>
        rw [hold] at hg
        obtain ⟨hkey, hfreq, hscore, hcat, hne⟩ := ih.1 g0 hold
        subst hg
        refine ⟨by rw [updateGroup_key, hkey], ?_, ?_, ?_, by simp⟩
        · show g0.frequency + c.frequency = _
          rw [sumFreq_append, hfreq]
        · rw [updateGroup_effScore, maxEff_append, if_neg hne, hscore]
        · show (if !(optTruthy g0.sitCategory) && optTruthy (effCat sc c) then effCat sc c
              else g0.sitCategory) = _
          rw [foldCat_append, if_neg hne, hcat]
      | none =>
        rw [hold] at hg
        have hempty : poolForKey (candidateKey c) ps = [] := ih.2 hold
        subst hg
        rw [hempty]
        refine ⟨rfl, ?_, ?_, ?_, by simp⟩
        · show c.frequency = sumFreq [c]
          simp [sumFreq]
        · show effScore c.score = maxEff [c]
          simp [maxEff]
        · show effCat sc c = foldCat sc [c]
          simp [foldCat]
    · have hne : candidateKey c ≠ k := fun h => hck (by simp [h])
      rw [find?_insertGrouped_other sc c (groupPool sc ps) k hne]
      simp only [hck, Bool.false_eq_true, if_false, List.append_nil]
      exact ih

/-- The keys after an insertion: unchanged when the candidate's key is
already present, otherwise extended by the new key. -/
theorem insertGrouped_map_key (sc : Option String) (c : RawCandidate)
    (acc : List GroupedCandidate) :
    (insertGrouped sc c acc).map (fun g => g.key)
      = if candidateKey c ∈ acc.map (fun g => g.key)
        then acc.map (fun g => g.key)
        else acc.map (fun g => g.key) ++ [candidateKey c] := by
  induction acc with
  | nil => simp [insertGrouped, initGroup]
  | cons g gs ih =>
    by_cases h : g.key == candidateKey c
    · simp [insertGrouped, h, updateGroup_key, eq_of_beq h]
    · have hne : candidateKey c ≠ g.key := by
        intro he
        exact absurd (by simp [he]) h
      by_cases hmem : candidateKey c ∈ gs.map (fun g2 => g2.key)
      · simp [insertGrouped, h, ih, hmem, hne]
      · simp [insertGrouped, h, ih, hmem, hne]

/-- The grouping fold never produces two entries with the same key. -/
theorem groupPool_keys_nodup (sc : Option String) (pool : List RawCandidate) :
    ((groupPool sc pool).map fun g => g.key).Nodup := by
  induction pool using List.reverseRecOn with
  | nil => simp [groupPool]
  | append_singleton ps c ih =>
    rw [groupPool_append, insertGrouped_map_key]
    by_cases h : candidateKey c ∈ (groupPool sc ps).map fun g => g.key
    · simp [h, ih]
    · simp [List.nodup_append, h, ih]

/-- In a list with pairwise-distinct keys, the member carrying a key is
what lookup by that key finds. -/
theorem find?_eq_of_mem_of_nodup_keys (l : List GroupedCandidate)
    (hnd : (l.map fun g => g.key).Nodup) (g : GroupedCandidate) (hg : g ∈ l) :
    l.find? (fun g2 => g2.key == g.key) = some g := by
  induction l with
  | nil => cases hg
  | cons g0 gs ih =>
    rcases List.mem_cons.mp hg with rfl | hg2
    · simp [List.find?_cons]
    · have hnd1 : (g0.key :: gs.map fun g2 => g2.key).Nodup := by simpa using hnd
      have hne : (g0.key == g.key) = false := by
        simp only [beq_eq_false_iff_ne]
        intro he
        exact (List.nodup_cons.mp hnd1).1
          (he ▸ List.mem_map_of_mem (fun g2 => g2.key) hg2)
      rw [List.find?_cons]
      simp only [hne]
      exact ih ((List.nodup_cons.mp hnd1).2) hg2

/-- A member of the sorted aggregation output is the entry that the
grouping map holds for its key. -/
theorem find?_of_mem_groupedCandidates (sc : Option String) (pool : List RawCandidate)
    (g : GroupedCandidate) (hg : g ∈ groupedCandidates sc pool) :
    (groupPool sc pool).find? (fun g2 => g2.key == g.key) = some g := by
  have hmem : g ∈ groupPool sc pool :=
    (List.mergeSort_perm (groupPool sc pool) _).subset hg
  exact find?_eq_of_mem_of_nodup_keys _ (groupPool_keys_nodup sc pool) g hmem

/-! ## Claim C3: the category label of a group -/

/-- C3 fails on the code: the scan-level default is coalesced into each
member before grouping, so a labelless first member fixes the group's
label to the scan default even though a later member of the same group
carries its own label. -/
theorem scan_default_can_mask_member_label :
    ¬ categoryLabelAsSpecified (some "D") [unlabeledCand, labeledCand] := by
  intro h
  have heval : groupedCandidates (some "D") [unlabeledCand, labeledCand]
      = [updateGroup (some "D") (initGroup (some "D") unlabeledCand) labeledCand] := by
    simp [groupedCandidates, groupPool, insertGrouped, initGroup_key, candidateKey,
      unlabeledCand, labeledCand, List.mergeSort_singleton]
  have h2 := h _ (by rw [heval]; exact List.mem_singleton.mpr rfl)
  simp [updateGroup, initGroup, effCat, optTruthy, unlabeledCand, labeledCand, specC3Label,
    poolForKey, candidateKey] at h2

/-- C3 amended: each member's effective label is its own label when
non-null and otherwise the scan-level default; the group's label is the
first member's effective label, later replaced by a member's truthy
effective label only while the current label is still null or empty.
The scan default therefore applies per member, not merely as a
group-level fallback. -/
theorem group_label_is_first_truthy_effective_label
    (sc : Option String) (pool : List RawCandidate) (g : GroupedCandidate)
    (hg : g ∈ groupedCandidates sc pool) :
    g.sitCategory = foldCat sc (poolForKey g.key pool) :=
  ((groupPool_find_char sc pool g.key).1 g
    (find?_of_mem_groupedCandidates sc pool g hg)).2.2.2.1

/-- Witness for the amended C3 at the two-member pool. -/
theorem group_label_is_first_truthy_effective_label_witness :
    (updateGroup (some "D") (initGroup (some "D") unlabeledCand) labeledCand).sitCategory
      = foldCat (some "D")
          (poolForKey (updateGroup (some "D") (initGroup (some "D") unlabeledCand) labeledCand).key
            [unlabeledCand, labeledCand]) :=
  group_label_is_first_truthy_effective_label (some "D") [unlabeledCand, labeledCand] _ (by
    have heval : groupedCandidates (some "D") [unlabeledCand, labeledCand]
        = [updateGroup (some "D") (initGroup (some "D") unlabeledCand) labeledCand] := by
      simp [groupedCandidates, groupPool, insertGrouped, initGroup_key, candidateKey,
        unlabeledCand, labeledCand, List.mergeSort_singleton]
    rw [heval]
    exact List.mem_singleton.mpr rfl)

/-! ## Claim C4: monotonicity under pool supersets -/

/-- `Nat.toDigitsCore` with sufficient fuel computes `natDigits`. -/
theorem toDigitsCore_eq_natDigits (fuel n : Nat) (acc : List Char) (h : n ≤ fuel) :
    Nat.toDigitsCore 10 (fuel + 1) n acc = natDigits n ++ acc := by
  induction fuel generalizing n acc with
  | zero =>
    have hn : n = 0 := by omega
    subst hn
    simp [Nat.toDigitsCore, natDigits]
  | succ fuel ih =>
    rw [Nat.toDigitsCore]
    by_cases h0 : n / 10 = 0
    · have hlt : n < 10 := by omega
      simp only [h0, if_true]
      rw [natDigits]
      simp [hlt, Nat.mod_eq_of_lt hlt]
    · have hge : 10 ≤ n := by
        by_contra hc
        exact h0 (Nat.div_eq_of_lt (by omega))
      have hdiv : n / 10 < n := Nat.div_lt_self (by omega) (by omega)
      simp only [h0, if_false]
      rw [ih (n / 10) _ (by omega)]
      have hnd : natDigits n = natDigits (n / 10) ++ [Nat.digitChar (n % 10)] := by
        rw [natDigits]
        exact if_neg (by omega)
      rw [hnd, List.append_assoc]
      rfl

/-- The characters of `Nat.repr` are `natDigits`. -/
theorem repr_eq_natDigits (n : Nat) : (Nat.repr n).data = natDigits n := by
  show (Nat.toDigits 10 n).asString.data = natDigits n
  rw [Nat.toDigits, toDigitsCore_eq_natDigits n n [] (le_refl n)]
  simp [List.asString]

/-- A digit character below base ten is a decimal digit. -/
theorem digitChar_isDigit (m : Nat) (h : m < 10) : (Nat.digitChar m).isDigit = true := by
  interval_cases m <;> decide

/-- Every character of a decimal numeral is a decimal digit. -/
theorem natDigits_isDigit (n : Nat) (c : Char) (hc : c ∈ natDigits n) : c.isDigit = true := by
  induction n using Nat.strong_induction_on with
  | _ n ih =>
    rw [natDigits] at hc
    by_cases h : n < 10
    · simp only [h, if_true, List.mem_singleton] at hc
      subst hc
      exact digitChar_isDigit n h
    · simp only [h, if_false, List.mem_append, List.mem_singleton] at hc
      rcases hc with hc | hc
      · exact ih (n / 10) (Nat.div_lt_self (by omega) (by omega)) hc
      · subst hc
        exact digitChar_isDigit _ (Nat.mod_lt _ (by omega))

/-- Reading one more digit. -/
theorem digitsVal_append_singleton (l : List Char) (c : Char) :
    digitsVal (l ++ [c]) = 10 * digitsVal l + (c.toNat - 48) := by
  rw [digitsVal, List.foldl_append]
  rfl

/-- The numeric value of a digit character below base ten. -/
theorem digitChar_val (m : Nat) (h : m < 10) : (Nat.digitChar m).toNat - 48 = m := by
  interval_cases m <;> decide

/-- Reading a decimal numeral recovers the number. -/
theorem digitsVal_natDigits (n : Nat) : digitsVal (natDigits n) = n := by
  induction n using Nat.strong_induction_on with
  | _ n ih =>
    rw [natDigits]
    by_cases h : n < 10
    · simp [h, digitsVal, digitChar_val n h]
    · simp only [h, if_false]
      rw [digitsVal_append_singleton, ih (n / 10) (Nat.div_lt_self (by omega) (by omega)),
        digitChar_val _ (Nat.mod_lt _ (by omega))]
      omega

/-- Decimal numerals are injective. -/
theorem natDigits_inj (m n : Nat) (h : natDigits m = natDigits n) : m = n := by
  have h2 := digitsVal_natDigits m
  rw [h, digitsVal_natDigits] at h2
  omega

/-- The characters of the decimal rendering of an integer. -/
theorem toString_int_data (i : Int) :
    (toString i).data = match i with
      | Int.ofNat m => natDigits m
      | Int.negSucc m => '-' :: natDigits (m + 1) := by
  cases i with
  | ofNat m =>
    show (toString m).data = _
    exact repr_eq_natDigits m
  | negSucc m =>
    show ("-" ++ toString (m + 1)).data = _
    rw [String.data_append]
    show '-' :: (Nat.repr (m + 1)).data = _
    rw [repr_eq_natDigits]

/-- No rendered integer contains a colon. -/
theorem toString_int_ne_colon (i : Int) (c : Char) (hc : c ∈ (toString i).data) : c ≠ ':' := by
  rw [toString_int_data] at hc
  cases i with
  | ofNat m =>
    intro he
    subst he
    exact absurd (natDigits_isDigit m _ hc) (by decide)
  | negSucc m =>
    rcases List.mem_cons.mp hc with rfl | hc2
    · decide
    · intro he
      subst he
      exact absurd (natDigits_isDigit (m + 1) _ hc2) (by decide)

/-- No rendered natural number contains a colon. -/
theorem toString_nat_ne_colon (n : Nat) (c : Char) (hc : c ∈ (toString n).data) : c ≠ ':' := by
  have hd : (toString n).data = natDigits n := repr_eq_natDigits n
  rw [hd] at hc
  intro he
  subst he
  exact absurd (natDigits_isDigit n _ hc) (by decide)

/-- Rendering of natural numbers is injective. -/
theorem toString_nat_inj (m n : Nat) (h : toString m = toString n) : m = n := by
  apply natDigits_inj
  rw [← repr_eq_natDigits, ← repr_eq_natDigits]
  exact congrArg String.data h

/-- Rendering of integers is injective. -/
theorem toString_int_inj (i j : Int) (h : toString i = toString j) : i = j := by
  have hd : (toString i).data = (toString j).data := by rw [h]
  rw [toString_int_data, toString_int_data] at hd
  cases i with
  | ofNat m =>
    cases j with
    | ofNat n => exact congrArg Int.ofNat (natDigits_inj _ _ hd)
    | negSucc n =>
      exfalso
      have hd2 : natDigits m = '-' :: natDigits (n + 1) := hd
      have hm : '-' ∈ natDigits m := by rw [hd2]; exact List.mem_cons_self _ _
      exact absurd (natDigits_isDigit m _ hm) (by decide)
  | negSucc m =>
    cases j with
    | ofNat n =>
      exfalso
      have hd2 : '-' :: natDigits (m + 1) = natDigits n := hd
      have hm : '-' ∈ natDigits n := by rw [← hd2]; exact List.mem_cons_self _ _
      exact absurd (natDigits_isDigit n _ hm) (by decide)
    | negSucc n =>
      have hd2 : '-' :: natDigits (m + 1) = '-' :: natDigits (n + 1) := hd
      have h2 : natDigits (m + 1) = natDigits (n + 1) := by injection hd2
      have h3 := natDigits_inj _ _ h2
      exact congrArg Int.negSucc (by omega)

/-- Splitting two concatenations at the first occurrence of a
separator. -/
theorem sep_split_first (sep : Char) (u : List Char) :
    ∀ (v u2 v2 : List Char), sep ∉ u → sep ∉ u2 →
      u ++ sep :: v = u2 ++ sep :: v2 → u = u2 ∧ v = v2 := by
  induction u with
  | nil =>
    intro v u2 v2 _ hu2 h
    cases u2 with
    | nil => simpa using h
    | cons x xs =>
      exfalso
      simp only [List.nil_append, List.cons_append] at h
      injection h with h1 h2
      exact hu2 (h1 ▸ List.mem_cons_self x xs)
  | cons x xs ih =>
    intro v u2 v2 hu hu2 h
    cases u2 with
    | nil =>
      exfalso
      simp only [List.nil_append, List.cons_append] at h
      injection h with h1 h2
      exact hu (h1 ▸ List.mem_cons_self x xs)
    | cons y ys =>
      simp only [List.cons_append] at h
      injection h with h1 h2
      obtain ⟨ha, hb⟩ := ih v ys v2 (fun hm => hu (List.mem_cons_of_mem _ hm))
        (fun hm => hu2 (List.mem_cons_of_mem _ hm)) h2
      exact ⟨by rw [h1, ha], hb⟩

/-- Splitting two concatenations at the last occurrence of a
separator. -/
theorem sep_split_last (sep : Char) (u v u2 v2 : List Char)
    (hv : sep ∉ v) (hv2 : sep ∉ v2) (h : u ++ sep :: v = u2 ++ sep :: v2) :
    u = u2 ∧ v = v2 := by
  have hr : v.reverse ++ sep :: u.reverse = v2.reverse ++ sep :: u2.reverse := by
    have h2 := congrArg List.reverse h
    simpa [List.reverse_append] using h2
  obtain ⟨h1, h2⟩ := sep_split_first sep v.reverse u.reverse v2.reverse u2.reverse
    (by simpa using hv) (by simpa using hv2) hr
  constructor
  · have h3 := congrArg List.reverse h2
    simpa using h3
  · have h3 := congrArg List.reverse h1
    simpa using h3

/-- The characters of a merge key, grouped around its last colon. -/
theorem fileKey_data (f : WorkFile) :
    (fileKey f).data
      = (f.name.data ++ ':' :: (toString f.size).data)
        ++ ':' :: (toString f.lastModified).data := by
  simp [fileKey, String.data_append]

/-- The merge key determines name, byte length and timestamp. -/
theorem fileKey_inj (e f : WorkFile) (h : fileKey e = fileKey f) :
    e.name = f.name ∧ e.size = f.size ∧ e.lastModified = f.lastModified := by
  have hd := congrArg String.data h
  rw [fileKey_data, fileKey_data] at hd
  obtain ⟨h1, h2⟩ := sep_split_last ':' _ _ _ _
    (fun hm => toString_int_ne_colon _ _ hm rfl)
    (fun hm => toString_int_ne_colon _ _ hm rfl) hd
  obtain ⟨h3, h4⟩ := sep_split_last ':' _ _ _ _
    (fun hm => toString_nat_ne_colon _ _ hm rfl)
    (fun hm => toString_nat_ne_colon _ _ hm rfl) h1
  refine ⟨String.ext h3, ?_, ?_⟩
  · exact toString_nat_inj _ _ (String.ext h4)
  · exact toString_int_inj _ _ (String.ext h2)

/-- `Map.set` with an absent key appends. -/
theorem setKey_of_not_mem (k : String) (f : WorkFile) (m : List (String × WorkFile))
    (h : ∀ p ∈ m, p.fst ≠ k) : setKey k f m = m ++ [(k, f)] := by
  induction m with
  | nil => rfl
  | cons p ps ih =>
    have hp : (p.fst == k) = false := by
      simp [h p (List.mem_cons_self p ps)]
    simp only [setKey, hp, Bool.false_eq_true, if_false, List.cons_append]
    rw [ih fun q hq => h q (List.mem_cons_of_mem p hq)]

/-- Keying a set whose identities are pairwise distinct pairs each file
with its key, in order. -/
theorem toKeyMap_of_nodup (files : List WorkFile) (hnd : (files.map fileKey).Nodup) :
    toKeyMap files = files.map fun e => (fileKey e, e) := by
  induction files using List.reverseRecOn with
  | nil => rfl
  | append_singleton ps f ih =>
    have hnd2 : (ps.map fileKey).Nodup := by
      rw [List.map_append] at hnd
      exact (List.nodup_append.mp hnd).1
    have hf : fileKey f ∉ ps.map fileKey := by
      rw [List.map_append] at hnd
      intro hm
      rcases List.nodup_append.mp hnd with ⟨-, -, hdis⟩
      exact hdis hm (by simp)
    show (ps ++ [f]).foldl (fun m e => setKey (fileKey e) e m) [] = _
    rw [List.foldl_append]
    show setKey (fileKey f) f (toKeyMap ps) = _
    rw [ih hnd2, setKey_of_not_mem]
    · simp
    · intro p hp
      rcases List.mem_map.mp hp with ⟨e, he, rfl⟩
      intro hc
      exact hf (hc ▸ List.mem_map_of_mem fileKey he)

/-- `Map.set` of one incoming file over a keyed deduplicated set:
replace in place when its key is present, append when it is not. -/
theorem setKey_map_pairing (prev : List WorkFile) (f : WorkFile)
    (hnd : (prev.map fileKey).Nodup) :
    (setKey (fileKey f) f (prev.map fun e => (fileKey e, e))).map Prod.snd
      = if ∃ e ∈ prev, fileKey e = fileKey f
        then prev.map fun e => if fileKey e == fileKey f then f else e
        else prev ++ [f] := by
  induction prev with
  | nil => simp [setKey]
  | cons e es ih =>
    have hnd1 : (es.map fileKey).Nodup := (List.nodup_cons.mp (by simpa using hnd)).2
    by_cases he : fileKey e = fileKey f
    · have hcond : ∃ x ∈ e :: es, fileKey x = fileKey f := ⟨e, List.mem_cons_self e es, he⟩
      rw [if_pos hcond]
      simp only [List.map_cons, setKey, show ((fileKey e) == fileKey f) = true by simp [he],
        if_true, List.map_cons]
      have htail : es.map (fun x => if fileKey x == fileKey f then f else x) = es := by
        have hkey : fileKey e ∉ es.map fileKey := (List.nodup_cons.mp (by simpa using hnd)).1
        have h2 : ∀ x ∈ es, (if fileKey x == fileKey f then f else x) = x := by
          intro x hx
          have hne : (fileKey x == fileKey f) = false := by
            simp only [beq_eq_false_iff_ne]
            intro hc
            exact hkey (by rw [he, ← hc]; exact List.mem_map_of_mem fileKey hx)
          rw [hne]
          simp
        rw [List.map_congr_left h2]
        simp
      rw [htail]
      simp only [List.map_map]
      exact congrArg (fun l => f :: l) (by simp [Function.comp_def])
    · have hne : ((fileKey e) == fileKey f) = false := by
        simp [he]
      simp only [List.map_cons, setKey, hne, Bool.false_eq_true, if_false, List.map_cons]
      by_cases hex : ∃ x ∈ es, fileKey x = fileKey f
      · have hcond : ∃ x ∈ e :: es, fileKey x = fileKey f :=
          let ⟨x, hx, hxe⟩ := hex
          ⟨x, List.mem_cons_of_mem e hx, hxe⟩
        rw [if_pos hcond, ih hnd1, if_pos hex]
      · have hcond : ¬ ∃ x ∈ e :: es, fileKey x = fileKey f := by
          rintro ⟨x, hx, hxe⟩
          rcases List.mem_cons.mp hx with rfl | hx2
          · exact he hxe
          · exact hex ⟨x, hx2, hxe⟩
        rw [if_neg hcond, ih hnd1, if_neg hex, List.cons_append]

/-- C5: over a deduplicated working set, merging one incoming file
replaces an existing entry in place (last-write-wins, no duplicate)
exactly when the incoming file matches that entry in all three of name,
byte length and last-modified timestamp; a file differing in any of the
three replaces nothing and is appended. -/
theorem merge_replaces_exactly_on_identity_match
    (prev : List WorkFile) (f : WorkFile) (hnd : (prev.map fileKey).Nodup) :
    ((∃ e ∈ prev, e.name = f.name ∧ e.size = f.size ∧ e.lastModified = f.lastModified) →
        mergeFiles prev [f] = prev.map fun e => if fileKey e == fileKey f then f else e)
    ∧ ((∀ e ∈ prev, ¬(e.name = f.name ∧ e.size = f.size ∧ e.lastModified = f.lastModified)) →
        mergeFiles prev [f] = prev ++ [f]) := by
  have hm : mergeFiles prev [f]
      = (setKey (fileKey f) f (prev.map fun e => (fileKey e, e))).map Prod.snd := by
    simp only [mergeFiles, List.length_cons, List.length_nil]
    rw [if_neg (by decide)]
    simp only [List.foldl_cons, List.foldl_nil]
    rw [toKeyMap_of_nodup prev hnd]
  rw [hm, setKey_map_pairing prev f hnd]
  constructor
  · rintro ⟨e, he, h1, h2, h3⟩
    rw [if_pos ⟨e, he, by simp [fileKey, h1, h2, h3]⟩]
  · intro hno
    have hnex : ¬ ∃ e ∈ prev, fileKey e = fileKey f := by
      rintro ⟨e, he, hk⟩
      exact hno e he (fileKey_inj e f hk)
    rw [if_neg hnex]

/-- Witness for C5: re-adding a file with identical name, size and
timestamp but new bytes replaces the old entry. -/
theorem merge_replaces_exactly_on_identity_match_witness :
    mergeFiles [⟨"a.txt", 3, 5, "old"⟩] [⟨"a.txt", 3, 5, "new"⟩]
      = [(⟨"a.txt", 3, 5, "old"⟩ : WorkFile)].map
          fun e => if fileKey e == fileKey ⟨"a.txt", 3, 5, "new"⟩
            then (⟨"a.txt", 3, 5, "new"⟩ : WorkFile) else e :=
  (merge_replaces_exactly_on_identity_match [⟨"a.txt", 3, 5, "old"⟩] ⟨"a.txt", 3, 5, "new"⟩
    (by simp)).1 ⟨⟨"a.txt", 3, 5, "old"⟩, by simp, rfl, rfl, rfl⟩

end SitBuilder
